import Mathlib

/-!
# Verification of the syncr delta-transfer core

Shallow embedding of the weak rolling checksum, the strong block checksum,
the source/updater session logic and the framed connection reader of the
syncr repository, together with proofs and refutations of the specified
properties.

Conventions: byte buffers are `List Nat` (a `u8` is a `Nat`); `usize` values
are `Nat`; `isize` values are `Int` with `rem_euclid = Int.emod`; an `as u32`
cast is `% 4294967296`, an `as u16` cast is `% 65536`.  Fallible operations
(panics) return `Option`.  Iterators are embedded as the list of all values
they emit; recursions that walk an advancing window carry a structural fuel
argument which is always instantiated so that it never runs out.
-/

/-! ## Definitions -/

/-- Embedding of `WeakCheckSum::a_expanded` (src/weak_checksum.rs):
byte sum over `left..=right`, reduced `mod modulus` after every addition
(the addition itself is a `u32` addition, hence the `% 4294967296`).
Returns 0 when `right` is out of bounds. -/
def a_expanded (modulus : Nat) (left right : Nat) (buffer : List Nat) : Nat :=
  if buffer.length ≤ right then 0
  else ((List.range' left (right + 1 - left)).foldl
    (fun sum i => ((sum + buffer.getD i 0) % 4294967296) % modulus) 0) % modulus

/-- Embedding of `WeakCheckSum::b_expanded` (src/weak_checksum.rs):
position-weighted byte sum over `left..=right`; the weight `(right - i + 1)`
is cast `as u32` and the `u32` product and sum wrap at `2^32`. -/
def b_expanded (modulus : Nat) (left right : Nat) (buffer : List Nat) : Nat :=
  if buffer.length ≤ right then 0
  else ((List.range' left (right + 1 - left)).foldl
    (fun sum i =>
      ((sum + buffer.getD i 0 * ((right - i + 1) % 4294967296) % 4294967296)
        % 4294967296) % modulus) 0) % modulus

/-- Embedding of `WeakCheckSumRollingIterator::next` (src/weak_checksum.rs),
collected into the list of all emitted values.  State: window `[previous_k,
previous_l]`, running sums `a_k_l`, `b_k_l` (as `isize`, i.e. `Int`).  Each
emission is `a_k_l + (b_k_l << 16)` cast `as u32`; when the window can no
longer advance the current value is emitted and the iterator ends.  The
`fuel` argument only forces termination; every call site passes
`buffer.length`, which is never exhausted. -/
def rollAux (buffer : List Nat) (modulus : Int) :
    Nat → Nat → Nat → Int → Int → List Nat
  | 0, previous_k, previous_l, a_k_l, b_k_l =>
    if buffer.length ≤ previous_l + 1 ∨ buffer.length ≤ previous_k then
      [(a_k_l + b_k_l * 65536).toNat % 4294967296]
    else []
  | fuel + 1, previous_k, previous_l, a_k_l, b_k_l =>
    if buffer.length ≤ previous_l + 1 ∨ buffer.length ≤ previous_k then
      [(a_k_l + b_k_l * 65536).toNat % 4294967296]
    else
      let new_a_k_l := (a_k_l + (buffer.getD (previous_l + 1) 0 : Int)
        - (buffer.getD previous_k 0 : Int)).emod modulus
      let new_b_k_l := (b_k_l + new_a_k_l
        - (((previous_l : Int) - (previous_k : Int) + 1)
            * (buffer.getD previous_k 0 : Int))).emod modulus
      ((a_k_l + b_k_l * 65536).toNat % 4294967296) ::
        rollAux buffer modulus fuel (previous_k + 1) (previous_l + 1)
          (new_a_k_l.emod modulus) (new_b_k_l.emod modulus)

/-- Embedding of `WeakCheckSum::checksums` (the rolling stream,
src/weak_checksum.rs): empty buffer yields nothing; a buffer shorter than
the block size starts (and ends) with the window `[0, N-1]`; otherwise the
window starts at `[0, block_size-1]`. -/
def weakChecksums (modulus block_size : Nat) (buffer : List Nat) : List Nat :=
  if buffer.length = 0 then []
  else if buffer.length < block_size then
    rollAux buffer (modulus : Int) buffer.length 0 (buffer.length - 1)
      ((a_expanded modulus 0 (buffer.length - 1) buffer : Nat) : Int)
      ((b_expanded modulus 0 (buffer.length - 1) buffer : Nat) : Int)
  else
    rollAux buffer (modulus : Int) buffer.length 0 (block_size - 1)
      ((a_expanded modulus 0 (block_size - 1) buffer : Nat) : Int)
      ((b_expanded modulus 0 (block_size - 1) buffer : Nat) : Int)

/-- Rust's `Iterator::step_by(n)`: yields the first element, then every
`n`-th element after it.  `skip` counts elements still to be skipped before
the next yield (0 at the start). -/
def stepByAux {α : Type} (n : Nat) : Nat → List α → List α
  | _, [] => []
  | 0, x :: xs => x :: stepByAux n (n - 1) xs
  | s + 1, _ :: xs => stepByAux n s xs

/-- Rust's `Iterator::step_by(n)` applied from the start of the list. -/
def stepBy {α : Type} (n : Nat) (l : List α) : List α := stepByAux n 0 l

/-- Embedding of `WeakCheckSum::checksums_non_overlapping`
(src/weak_checksum.rs): the rolling stream stepped by `block_size`, chained
with the rolling stream of the final partial chunk when `N mod block_size ≠ 0`. -/
def weakNonOverlapping (modulus block_size : Nat) (data : List Nat) : List Nat :=
  if data.length % block_size ≠ 0 then
    stepBy block_size (weakChecksums modulus block_size data)
      ++ weakChecksums modulus block_size
          (data.drop (data.length - data.length % block_size))
  else
    stepBy block_size (weakChecksums modulus block_size data)

/-- Plain (unreduced) byte sum over the window `[k, l]`. -/
def natSumA (buffer : List Nat) (k l : Nat) : Nat :=
  ((List.range' k (l + 1 - k)).map (fun i => buffer.getD i 0)).sum

/-- Plain (unreduced) position-weighted byte sum over the window `[k, l]`. -/
def natSumB (buffer : List Nat) (k l : Nat) : Nat :=
  ((List.range' k (l + 1 - k)).map (fun i => buffer.getD i 0 * (l + 1 - i))).sum

/-- Embedding of `StrongCheckSumIterator::next` (src/strong_checksum.rs),
collected into the list of all emitted values.  Nothing is emitted once
`right_index ≥ data.len()`; otherwise the hash of
`data[left_index..right_index]` is emitted and both indices advance by
`shift`.  `hash` is the (external) MD4 digest, kept abstract.  The `fuel`
argument only forces termination; call sites pass `data.length`, which is
never exhausted for the shifts the source constructs. -/
def strongIter (hash : List Nat → Nat) (data : List Nat) (shift : Nat) :
    Nat → Nat → Nat → List Nat
  | 0, _, _ => []
  | fuel + 1, left_index, right_index =>
    if data.length ≤ right_index then []
    else
      hash ((data.drop left_index).take (right_index - left_index)) ::
        strongIter hash data shift fuel (left_index + shift) (right_index + shift)

/-- Embedding of `StrongCheckSum::checksums` (the rolling stream). -/
def strongChecksums (hash : List Nat → Nat) (block_size : Nat)
    (data : List Nat) : List Nat :=
  if data.length < block_size then
    strongIter hash data 1 data.length 0 data.length
  else
    strongIter hash data 1 data.length 0 block_size

/-- Embedding of `StrongCheckSum::checksums_non_overlapping`:
`left_index = 0`, `right_index = shift = min(data.len(), block_size)`. -/
def strongChecksumsNonOverlapping (hash : List Nat → Nat) (block_size : Nat)
    (data : List Nat) : List Nat :=
  strongIter hash data (min data.length block_size) data.length 0
    (min data.length block_size)

/-- Embedding of `Instruction` (src/network.rs). -/
inductive InstructionM where
  | newData (offset length : Nat) (bytes : List Nat)
  | replicate (from_offset length new_offset : Nat)
deriving DecidableEq

/-- Embedding of `Message` (src/network.rs).  `u32` checksums and `u128`
strong hashes are `Nat`. -/
inductive MessageM where
  | fileName (path : String)
  | weakChecksums (checksums : List Nat)
  | strongChecksumRequest (offsets : List Nat)
  | strongChecksums (pairs : List (Nat × Nat))
  | matches (pairs : List (Nat × Nat))
  | instructions (instrs : List InstructionM)
deriving DecidableEq

/-- Embedding of `WeakCheckSum`'s configuration fields. -/
structure WeakCheckSumS where
  modulus : Nat
  block_size : Nat
deriving DecidableEq

/-- Embedding of `StrongCheckSum`'s configuration field. -/
structure StrongCheckSumS where
  block_size : Nat
deriving DecidableEq

/-- Embedding of `CheckSum` (src/lib.rs): the weak/strong pair. -/
structure CheckSumS where
  weak : WeakCheckSumS
  strong : StrongCheckSumS
deriving DecidableEq

/-- `CheckSum::default()`: modulus `2^16`, block size 1000 on both halves. -/
def CheckSumS.defaultConfig : CheckSumS := ⟨⟨65536, 1000⟩, ⟨1000⟩⟩

/-- Embedding of `weak_hash` (src/multisearch.rs):
`((v >> 16) ^ ((v & 0xffff) * 62171)) as u16`. -/
def weak_hash (v : Nat) : Nat :=
  ((v >>> 16) ^^^ ((v &&& 65535) * 62171)) % 65536

/-- Embedding of the updater's `ConnectionState` (src/main.rs). -/
structure UpdaterState where
  checksum : CheckSumS
  weak_checksums : List Nat
  file_path : String
  remote_file_path : String
  own_data : List Nat

/-- `SingleConnection::build_filename_msg` (src/main.rs). -/
def UpdaterState.build_filename_msg (σ : UpdaterState) : MessageM :=
  MessageM.fileName σ.remote_file_path

/-- `SingleConnection::compute_our_checksums` (src/main.rs): load the local
file (passed here as `file_contents`) and store its **rolling** weak
checksum stream — `checksum.weak.checksums(...)`, not the non-overlapping
stream. -/
def UpdaterState.compute_our_checksums (σ : UpdaterState)
    (file_contents : List Nat) : UpdaterState :=
  { σ with
    own_data := file_contents,
    weak_checksums := weakChecksums σ.checksum.weak.modulus
      σ.checksum.weak.block_size file_contents }

/-- The two messages `SingleConnection::run` (src/main.rs) sends when the
connection opens: `FileName(remote_file_path)`, then `WeakChecksums` of the
checksums just computed by `compute_our_checksums`. -/
def updaterOpeningMessages (σ : UpdaterState) (file_contents : List Nat) :
    List MessageM :=
  [σ.build_filename_msg,
    MessageM.weakChecksums ((σ.compute_our_checksums file_contents).weak_checksums)]

/-- `SingleConnection::given_indices_issue_list_of_instructions`
(src/main.rs): stubbed in the source — it ignores its input and returns the
empty vector (`vec![]`). -/
def given_indices_issue_list_of_instructions (_σ : UpdaterState)
    (_indices : List (Nat × Nat)) : List InstructionM :=
  []

/-- The reconstructed-file offset an instruction writes at (`offset` for
`NewData`, `new_offset` for `Replicate`). -/
def instrNewOffset : InstructionM → Nat
  | .newData offset _ _ => offset
  | .replicate _ _ new_offset => new_offset

/-- The number of bytes an instruction writes. -/
def instrLength : InstructionM → Nat
  | .newData _ length _ => length
  | .replicate _ length _ => length

/-- `tilesFrom cursor instrs n`: the instructions, in order, start exactly at
`cursor` and abut one another, ending exactly at `n` — no gaps, no
overlaps. -/
def tilesFrom : Nat → List InstructionM → Nat → Prop
  | cursor, [], n => cursor = n
  | cursor, ins :: rest, n =>
    instrNewOffset ins = cursor ∧ tilesFrom (cursor + instrLength ins) rest n

/-- Sorted instructions tile `[0, n)` exactly. -/
def tilesExactly (instrs : List InstructionM) (n : Nat) : Prop :=
  tilesFrom 0 instrs n

/-- 1002-byte buffer: 1000 zero bytes followed by `1, 2`. -/
def c3Buffer : List Nat := List.replicate 1000 0 ++ [1, 2]

/-- The updater state as built by `main` (src/main.rs): default checksum
config, default CLI paths, nothing loaded yet. -/
def c3UpdaterState : UpdaterState :=
  { checksum := CheckSumS.defaultConfig, weak_checksums := [],
    file_path := "test.txt", remote_file_path := "test-remote.txt",
    own_data := [] }

/-- `HashMap<u16, HashMap<u32, Vec<usize>>>`, embedded as an association
list (bucket, association list (weak checksum, candidate byte offsets))
that preserves first-insertion order. -/
abbrev HashTable : Type := List (Nat × List (Nat × List Nat))

/-- `HashMap::get` over the association-list embedding. -/
def lookupList {α : Type} (t : List (Nat × α)) (key : Nat) : Option α :=
  (t.find? (fun p => p.1 == key)).map (fun p => p.2)

/-- `entry(key).and_modify(upd).or_insert(dflt)`: update the entry at `key`
in place, or append a fresh `(key, dflt)` entry. -/
def listUpsert {α : Type} (upd : α → α) (dflt : α) (key : Nat) :
    List (Nat × α) → List (Nat × α)
  | [] => [(key, dflt)]
  | (k, a) :: rest =>
    if k = key then (k, upd a) :: rest
    else (k, a) :: listUpsert upd dflt key rest

/-- One iteration of `compile_hash_table` (src/bin/syncrd.rs): append byte
offset `v` to the candidate list at `bucket[h][w]`. -/
def tableAppend (t : HashTable) (h w v : Nat) : HashTable :=
  listUpsert (fun m => listUpsert (fun offsets => offsets ++ [v]) [v] w m)
    [(w, [v])] h t

/-- The enumerated fold of `compile_hash_table`. -/
def compileAux (block_size : Nat) : Nat → List Nat → HashTable → HashTable
  | _, [], t => t
  | offset, checksum :: rest, t =>
    compileAux block_size (offset + 1) rest
      (tableAppend t (weak_hash checksum) checksum (offset * block_size))

/-- Embedding of `SingleConnection::compile_hash_table` (src/bin/syncrd.rs):
for each `(offset, w)` in the enumerated checksum sequence, append
`offset * block_size` under bucket `weak_hash w` and key `w`. -/
def compileHashTable (block_size : Nat) (ws : List Nat) : HashTable :=
  compileAux block_size 0 ws []

/-- The two-level membership probe of `build_strong_hash_request`
(src/bin/syncrd.rs): the 16-bit bucket is checked first and short-circuits;
then the 32-bit weak key. -/
def probeOk (t : HashTable) (w : Nat) : Bool :=
  match lookupList t (weak_hash w) with
  | none => false
  | some m => (lookupList m w).isSome

/-- The enumerated loop of `build_strong_hash_request`: push the *index* of
every received checksum whose bucket and weak key are present (the source
calls this index `byte_offset`). -/
def requestAux (t : HashTable) : Nat → List Nat → List Nat
  | _, [] => []
  | byte_offset, weak :: rest =>
    if probeOk t weak then byte_offset :: requestAux t (byte_offset + 1) rest
    else requestAux t (byte_offset + 1) rest

/-- Embedding of the source daemon's `ConnectionState` (src/bin/syncrd.rs). -/
structure SourceState where
  checksum : CheckSumS
  weak_checksums : List Nat
  file_path : String
  remote_weak_checksums : List Nat
  hash_table : HashTable
  own_data : List Nat

/-- `SingleConnection::compute_our_checksums` (src/bin/syncrd.rs): load the
local file and store its **non-overlapping** weak checksums. -/
def SourceState.compute_our_checksums (σ : SourceState)
    (file_contents : List Nat) : SourceState :=
  { σ with
    own_data := file_contents,
    weak_checksums := weakNonOverlapping σ.checksum.weak.modulus
      σ.checksum.weak.block_size file_contents }

/-- `SingleConnection::compile_hash_table` (src/bin/syncrd.rs): the table is
compiled from the session's **own** `weak_checksums`, with offsets scaled by
the strong half's block size. -/
def SourceState.compile_hash_table (σ : SourceState) : SourceState :=
  { σ with
    hash_table := compileHashTable σ.checksum.strong.block_size σ.weak_checksums }

/-- `SingleConnection::build_strong_hash_request` (src/bin/syncrd.rs): probe
each **received** checksum against the table and collect the indices of the
hits. -/
def SourceState.build_strong_hash_request (σ : SourceState) : MessageM :=
  MessageM.strongChecksumRequest (requestAux σ.hash_table 0 σ.remote_weak_checksums)

/-- The `WeakChecksums(W)` arm of the source's `SingleConnection::run`
(src/bin/syncrd.rs): store the received `W`, load the local file and compute
its own non-overlapping weak checksums, compile the hash table from those
own checksums, and reply with the strong-checksum request built by probing
the received `W`. -/
def handleWeakChecksums (σ : SourceState) (file_contents : List Nat)
    (received : List Nat) : SourceState × MessageM :=
  let σ1 := { σ with remote_weak_checksums := received }
  let σ2 := σ1.compute_our_checksums file_contents
  let σ3 := σ2.compile_hash_table
  (σ3, σ3.build_strong_hash_request)

/-- Inner loop of `process_strong_hash_response` (src/bin/syncrd.rs): for
each candidate offset, hash `own_data[our_offset .. our_offset + block_size]`
(`none` models the slice panic when the right end exceeds the buffer) and
record `(our_offset, remote_offset)` on a strong-hash match. -/
def strongMatchLoop (hash : List Nat → Nat) (block_size : Nat)
    (own_data : List Nat) (strong remote_offset : Nat) :
    List Nat → Option (List (Nat × Nat))
  | [] => some []
  | our_offset :: rest =>
    if our_offset + block_size ≤ own_data.length then
      (strongMatchLoop hash block_size own_data strong remote_offset rest).map
        (fun ms =>
          if hash ((own_data.drop our_offset).take block_size) = strong then
            (our_offset, remote_offset) :: ms
          else ms)
    else none

/-- Embedding of `SingleConnection::process_strong_hash_response`
(src/bin/syncrd.rs).  `none` models a panic: an out-of-range
`remote_offset` into `remote_weak_checksums`, a failed `unwrap` of either
hash-table level, or an out-of-bounds block slice of `own_data`. -/
def process_strong_hash_response (hash : List Nat → Nat) (σ : SourceState) :
    List (Nat × Nat) → Option (List (Nat × Nat))
  | [] => some []
  | (remote_offset, strong) :: rest =>
    (σ.remote_weak_checksums[remote_offset]?).bind (fun w =>
      (lookupList σ.hash_table (weak_hash w)).bind (fun m =>
        (lookupList m w).bind (fun offsets =>
          (strongMatchLoop hash σ.checksum.strong.block_size σ.own_data strong
            remote_offset offsets).bind (fun ms =>
            (process_strong_hash_response hash σ rest).map
              (fun rest_ms => ms ++ rest_ms)))))

/-- `ConnectionState::default()` of the source daemon: empty fields, default
checksum configuration. -/
def initialSourceState : SourceState :=
  { checksum := CheckSumS.defaultConfig, weak_checksums := [],
    file_path := "", remote_weak_checksums := [], hash_table := [],
    own_data := [] }

/-- `tableHas t h w v`: probing bucket `h` then key `w` succeeds and the
candidate list contains `v`. -/
def tableHas (t : HashTable) (h w v : Nat) : Prop :=
  ∃ m offsets, lookupList t h = some m ∧ lookupList m w = some offsets
    ∧ v ∈ offsets

/-- A concrete safe state for the C10 side conditions: block size 1,
`own_data = [5]`, and the table compiled from the single checksum the peer
echoes back. -/
def c10WitnessState : SourceState :=
  { checksum := ⟨⟨65536, 1⟩, ⟨1⟩⟩, weak_checksums := [327685],
    file_path := "", remote_weak_checksums := [327685],
    hash_table := compileHashTable 1 [327685], own_data := [5] }

/-- The error relevant to `Connection::read_message` (src/lib.rs defines the
full `SyncrError` taxonomy; only this variant is produced by the reader
itself). -/
inductive SyncrErrorM where
  | connectionResetByPeer
deriving DecidableEq

/-- Embedding of `Connection::read_message` (src/network.rs).  `decode` is
the (external) `rmp_serde::from_slice` deserializer, kept abstract; a read
returning bytes is one element of `reads`, and the end of `reads` is EOF
(a Tokio `read_buf` returning 0).  The loop first tries to decode the
buffered bytes; at EOF it reports a clean shutdown (`Except.ok none`) when
the buffer is empty, and `ConnectionResetByPeer` otherwise; a successful
read appends the chunk to the buffer and retries. -/
def read_message (decode : List Nat → Option MessageM) :
    List Nat → List (List Nat) → Except SyncrErrorM (Option MessageM)
  | buffer, reads =>
    match decode buffer with
    | some message => Except.ok (some message)
    | none =>
      match reads with
      | [] =>
        if buffer.isEmpty then Except.ok none
        else Except.error SyncrErrorM.connectionResetByPeer
      | chunk :: rest => read_message decode (buffer ++ chunk) rest

/-! ## Theorems -/

theorem foldA_eq (buffer : List Nat) (M : Nat) (hM : M ∣ 4294967296)
    (L : List Nat) (s : Nat) :
    (L.foldl (fun sum i => ((sum + buffer.getD i 0) % 4294967296) % M) s) % M
      = (s + (L.map (fun i => buffer.getD i 0)).sum) % M := by
  induction L generalizing s with
  | nil => simp
  | cons i L ih =>
    simp only [List.foldl_cons, List.map_cons, List.sum_cons]
    rw [ih, Nat.mod_mod_of_dvd _ hM, Nat.mod_add_mod, Nat.add_assoc]

theorem foldB_eq (buffer : List Nat) (M r : Nat) (hM : M ∣ 4294967296)
    (L : List Nat) (hmem : ∀ i ∈ L, i ≤ r) (s : Nat) :
    (L.foldl (fun sum i =>
        ((sum + buffer.getD i 0 * ((r - i + 1) % 4294967296) % 4294967296)
          % 4294967296) % M) s) % M
      = (s + (L.map (fun i => buffer.getD i 0 * (r + 1 - i))).sum) % M := by
  induction L generalizing s with
  | nil => simp
  | cons i L ih =>
    simp only [List.foldl_cons, List.map_cons, List.sum_cons]
    rw [ih (fun j hj => hmem j (List.mem_cons_of_mem _ hj))]
    have hi : i ≤ r := hmem i (List.mem_cons_self _ _)
    have h1 : buffer.getD i 0 * ((r - i + 1) % 4294967296) % 4294967296
        ≡ buffer.getD i 0 * (r + 1 - i) [MOD M] := by
      have e1 : buffer.getD i 0 * ((r - i + 1) % 4294967296) % 4294967296
          ≡ buffer.getD i 0 * ((r - i + 1) % 4294967296) [MOD M] :=
        Nat.mod_mod_of_dvd _ hM
      have e2 : ((r - i + 1) % 4294967296) ≡ r - i + 1 [MOD M] :=
        Nat.mod_mod_of_dvd _ hM
      have e3 := Nat.ModEq.mul_left (buffer.getD i 0) e2
      have e4 : r - i + 1 = r + 1 - i := by omega
      exact e1.trans (e4 ▸ e3)
    rw [Nat.mod_mod_of_dvd _ hM, Nat.mod_add_mod]
    have h2 := ((Nat.ModEq.refl s).add h1).add_right
      ((L.map (fun i => buffer.getD i 0 * (r + 1 - i))).sum)
    rw [← Nat.add_assoc] at *
    exact h2

theorem a_expanded_eq_sum (M : Nat) (k l : Nat) (buffer : List Nat)
    (hM : M ∣ 4294967296) (hl : l < buffer.length) :
    a_expanded M k l buffer = natSumA buffer k l % M := by
  unfold a_expanded
  rw [if_neg (by omega)]
  rw [foldA_eq buffer M hM]
  simp [natSumA]

theorem b_expanded_eq_sum (M : Nat) (k l : Nat) (buffer : List Nat)
    (hM : M ∣ 4294967296) (hl : l < buffer.length) :
    b_expanded M k l buffer = natSumB buffer k l % M := by
  unfold b_expanded
  rw [if_neg (by omega)]
  rw [foldB_eq buffer M l hM _ (by
    intro i hi
    have := List.mem_range'_1.mp hi
    omega)]
  simp [natSumB]

theorem a_expanded_lt (M l r : Nat) (buffer : List Nat) (hM : 0 < M) :
    a_expanded M l r buffer < M := by
  unfold a_expanded
  split
  · exact hM
  · exact Nat.mod_lt _ hM

theorem b_expanded_lt (M l r : Nat) (buffer : List Nat) (hM : 0 < M) :
    b_expanded M l r buffer < M := by
  unfold b_expanded
  split
  · exact hM
  · exact Nat.mod_lt _ hM

theorem natSumA_shift (buffer : List Nat) (k l : Nat) (hkl : k ≤ l) :
    natSumA buffer (k + 1) (l + 1) + buffer.getD k 0
      = natSumA buffer k l + buffer.getD (l + 1) 0 := by
  unfold natSumA
  have hw : l + 1 + 1 - (k + 1) = l + 1 - k := by omega
  rw [hw]
  have h1 : List.range' k (l + 1 - k + 1) = k :: List.range' (k + 1) (l + 1 - k) :=
    List.range'_succ k (l + 1 - k) 1
  have h2 : List.range' k (l + 1 - k + 1)
      = List.range' k (l + 1 - k) ++ [k + 1 * (l + 1 - k)] :=
    List.range'_concat k (l + 1 - k)
  have h3 : ((k :: List.range' (k + 1) (l + 1 - k)).map
        (fun i => buffer.getD i 0)).sum
      = ((List.range' k (l + 1 - k) ++ [k + 1 * (l + 1 - k)]).map
        (fun i => buffer.getD i 0)).sum := by
    rw [← h1, ← h2]
  simp only [List.map_cons, List.sum_cons, List.map_append, List.sum_append,
    List.map_nil, List.sum_nil, add_zero, one_mul] at h3
  have h4 : k + (l + 1 - k) = l + 1 := by omega
  rw [h4] at h3
  omega

theorem natSumB_shift (buffer : List Nat) (k l : Nat) (hkl : k ≤ l) :
    natSumB buffer (k + 1) (l + 1) + buffer.getD k 0 * (l + 1 - k)
      = natSumB buffer k l + natSumA buffer (k + 1) (l + 1) := by
  unfold natSumB natSumA
  have hw : l + 1 + 1 - (k + 1) = l + 1 - k := by omega
  rw [hw]
  have hsplit : ((List.range' (k + 1) (l + 1 - k)).map
        (fun i => buffer.getD i 0 * (l + 1 + 1 - i))).sum
      = ((List.range' (k + 1) (l + 1 - k)).map
        (fun i => buffer.getD i 0 * (l + 1 - i) + buffer.getD i 0)).sum := by
    apply congrArg
    apply List.map_congr_left
    intro i hi
    have hmem := List.mem_range'_1.mp hi
    have hww : l + 1 + 1 - i = (l + 1 - i) + 1 := by omega
    rw [hww, Nat.mul_add, Nat.mul_one]
  rw [hsplit, List.sum_map_add]
  have h1 : List.range' k (l + 1 - k + 1) = k :: List.range' (k + 1) (l + 1 - k) :=
    List.range'_succ k (l + 1 - k) 1
  have h2 : List.range' k (l + 1 - k + 1)
      = List.range' k (l + 1 - k) ++ [k + 1 * (l + 1 - k)] :=
    List.range'_concat k (l + 1 - k)
  have h3 : ((k :: List.range' (k + 1) (l + 1 - k)).map
        (fun i => buffer.getD i 0 * (l + 1 - i))).sum
      = ((List.range' k (l + 1 - k) ++ [k + 1 * (l + 1 - k)]).map
        (fun i => buffer.getD i 0 * (l + 1 - i))).sum := by
    rw [← h1, ← h2]
  simp only [List.map_cons, List.sum_cons, List.map_append, List.sum_append,
    List.map_nil, List.sum_nil, add_zero, one_mul] at h3
  have h4 : k + (l + 1 - k) = l + 1 := by omega
  rw [h4] at h3
  have h5 : l + 1 - (l + 1) = 0 := by omega
  rw [h5, Nat.mul_zero] at h3
  omega

theorem cast_a_expanded (k l : Nat) (buffer : List Nat) (hl : l < buffer.length) :
    ((a_expanded 65536 k l buffer : Nat) : Int)
      = ((natSumA buffer k l : Nat) : Int) % 65536 := by
  rw [a_expanded_eq_sum 65536 k l buffer (by norm_num) hl]
  rw [Int.natCast_mod]
  norm_num

theorem cast_b_expanded (k l : Nat) (buffer : List Nat) (hl : l < buffer.length) :
    ((b_expanded 65536 k l buffer : Nat) : Int)
      = ((natSumB buffer k l : Nat) : Int) % 65536 := by
  rw [b_expanded_eq_sum 65536 k l buffer (by norm_num) hl]
  rw [Int.natCast_mod]
  norm_num

theorem roll_a_step (buffer : List Nat) (k l : Nat)
    (hkl : k ≤ l) (hl1 : l + 1 < buffer.length) :
    (((a_expanded 65536 k l buffer : Nat) : Int) + (buffer.getD (l + 1) 0 : Int)
        - (buffer.getD k 0 : Int)).emod 65536
      = ((a_expanded 65536 (k + 1) (l + 1) buffer : Nat) : Int) := by
  have hl : l < buffer.length := by omega
  rw [cast_a_expanded k l buffer hl, cast_a_expanded (k + 1) (l + 1) buffer hl1]
  have hshift := natSumA_shift buffer k l hkl
  have hs : ((natSumA buffer (k + 1) (l + 1) : Nat) : Int)
      = ((natSumA buffer k l : Nat) : Int) + (buffer.getD (l + 1) 0 : Int)
        - (buffer.getD k 0 : Int) := by omega
  rw [hs]
  have h1 : ((natSumA buffer k l : Nat) : Int) % 65536
      ≡ ((natSumA buffer k l : Nat) : Int) [ZMOD 65536] :=
    Int.emod_emod_of_dvd _ dvd_rfl
  exact (h1.add_right ((buffer.getD (l + 1) 0 : Nat) : Int)).sub_right
    ((buffer.getD k 0 : Nat) : Int)

theorem roll_b_step (buffer : List Nat) (k l : Nat)
    (hkl : k ≤ l) (hl1 : l + 1 < buffer.length) :
    (((b_expanded 65536 k l buffer : Nat) : Int)
        + ((a_expanded 65536 (k + 1) (l + 1) buffer : Nat) : Int)
        - (((l : Int) - (k : Int) + 1) * (buffer.getD k 0 : Int))).emod 65536
      = ((b_expanded 65536 (k + 1) (l + 1) buffer : Nat) : Int) := by
  have hl : l < buffer.length := by omega
  rw [cast_b_expanded k l buffer hl, cast_b_expanded (k + 1) (l + 1) buffer hl1,
    cast_a_expanded (k + 1) (l + 1) buffer hl1]
  have hshift : ((natSumB buffer (k + 1) (l + 1) : Nat) : Int)
      + ((buffer.getD k 0 : Nat) : Int) * (((l + 1 - k : Nat)) : Int)
      = ((natSumB buffer k l : Nat) : Int)
        + ((natSumA buffer (k + 1) (l + 1) : Nat) : Int) := by
    exact_mod_cast natSumB_shift buffer k l hkl
  have hprod : ((l : Int) - (k : Int) + 1) * ((buffer.getD k 0 : Nat) : Int)
      = ((buffer.getD k 0 : Nat) : Int) * (((l + 1 - k : Nat)) : Int) := by
    have h6 : ((l : Int) - (k : Int) + 1) = (((l + 1 - k : Nat)) : Int) := by omega
    rw [h6, mul_comm]
  rw [hprod]
  have hs : ((natSumB buffer (k + 1) (l + 1) : Nat) : Int)
      = ((natSumB buffer k l : Nat) : Int)
        + ((natSumA buffer (k + 1) (l + 1) : Nat) : Int)
        - ((buffer.getD k 0 : Nat) : Int) * (((l + 1 - k : Nat)) : Int) := by
    omega
  rw [hs]
  have h1 : ((natSumB buffer k l : Nat) : Int) % 65536
      ≡ ((natSumB buffer k l : Nat) : Int) [ZMOD 65536] :=
    Int.emod_emod_of_dvd _ dvd_rfl
  have h2 : ((natSumA buffer (k + 1) (l + 1) : Nat) : Int) % 65536
      ≡ ((natSumA buffer (k + 1) (l + 1) : Nat) : Int) [ZMOD 65536] :=
    Int.emod_emod_of_dvd _ dvd_rfl
  exact (h1.add h2).sub_right
    (((buffer.getD k 0 : Nat) : Int) * (((l + 1 - k : Nat)) : Int))

theorem emit_eq (x y : Nat) (hx : x < 65536) (hy : y < 65536) :
    (((x : Int) + (y : Int) * 65536).toNat % 4294967296) = x + y * 65536 := by
  have h : ((x : Int) + (y : Int) * 65536) = ((x + y * 65536 : Nat) : Int) := by
    push_cast
    ring
  rw [h, Int.toNat_natCast]
  exact Nat.mod_eq_of_lt (by omega)

theorem cast_emod_self (n : Nat) (h : n < 65536) : ((n : Nat) : Int).emod 65536 = n :=
  Int.emod_eq_of_lt (by omega) (by omega)

/-- The rolling iterator, started on the window `[k, l]` with the expanded
sums as its state, emits exactly the expanded checksum of every window of
width `l - k + 1` up to the end of the buffer. -/
theorem rollAux_eq (buffer : List Nat) (fuel k l : Nat)
    (hkl : k ≤ l) (hl : l < buffer.length)
    (hfuel : buffer.length ≤ fuel + l + 1) :
    rollAux buffer 65536 fuel k l
        ((a_expanded 65536 k l buffer : Nat) : Int)
        ((b_expanded 65536 k l buffer : Nat) : Int)
      = (List.range' k (buffer.length - l)).map
          (fun j => a_expanded 65536 j (j + (l - k)) buffer
            + b_expanded 65536 j (j + (l - k)) buffer * 65536) := by
  induction fuel generalizing k l with
  | zero =>
    rw [rollAux, if_pos (by omega)]
    have hlen : buffer.length - l = 1 := by omega
    rw [hlen, List.range'_one, List.map_cons, List.map_nil]
    rw [show k + (l - k) = l from by omega]
    rw [emit_eq _ _ (a_expanded_lt _ _ _ _ (by norm_num))
      (b_expanded_lt _ _ _ _ (by norm_num))]
  | succ fuel ih =>
    by_cases hend : buffer.length ≤ l + 1 ∨ buffer.length ≤ k
    · rw [rollAux, if_pos hend]
      have hlen : buffer.length - l = 1 := by omega
      rw [hlen, List.range'_one, List.map_cons, List.map_nil]
      rw [show k + (l - k) = l from by omega]
      rw [emit_eq _ _ (a_expanded_lt _ _ _ _ (by norm_num))
        (b_expanded_lt _ _ _ _ (by norm_num))]
    · rw [rollAux, if_neg hend]
      push_neg at hend
      obtain ⟨hll, _⟩ := hend
      simp only []
      rw [roll_a_step buffer k l hkl hll]
      rw [roll_b_step buffer k l hkl hll]
      rw [cast_emod_self _ (a_expanded_lt _ _ _ _ (by norm_num))]
      rw [cast_emod_self _ (b_expanded_lt _ _ _ _ (by norm_num))]
      rw [ih (k + 1) (l + 1) (by omega) hll (by omega)]
      rw [show buffer.length - l = (buffer.length - (l + 1)) + 1 from by omega]
      rw [List.range'_succ, List.map_cons]
      congr 1
      · rw [show k + (l - k) = l from by omega]
        rw [emit_eq _ _ (a_expanded_lt _ _ _ _ (by norm_num))
          (b_expanded_lt _ _ _ _ (by norm_num))]
      · simp only [Nat.succ_sub_succ_eq_sub]

/-- The rolling stream over a buffer of length `≥ block_size ≥ 1`, in closed
form: one expanded checksum per window start `0, …, N - B`. -/
theorem weakChecksums_long (block_size : Nat) (buffer : List Nat)
    (hB : 1 ≤ block_size) (hBN : block_size ≤ buffer.length) :
    weakChecksums 65536 block_size buffer
      = (List.range' 0 (buffer.length - block_size + 1)).map
          (fun j => a_expanded 65536 j (j + (block_size - 1)) buffer
            + b_expanded 65536 j (j + (block_size - 1)) buffer * 65536) := by
  unfold weakChecksums
  rw [if_neg (by omega), if_neg (by omega)]
  simp only [Nat.cast_ofNat]
  rw [rollAux_eq buffer buffer.length 0 (block_size - 1) (by omega) (by omega)
    (by omega)]
  simp only [Nat.sub_zero]
  rw [show buffer.length - (block_size - 1) = buffer.length - block_size + 1
    from by omega]

/-- The rolling stream over a nonempty buffer shorter than the block size:
exactly one value, the expanded checksum of the whole buffer. -/
theorem weakChecksums_short (block_size : Nat) (buffer : List Nat)
    (h0 : buffer.length ≠ 0) (hBN : buffer.length < block_size) :
    weakChecksums 65536 block_size buffer
      = [a_expanded 65536 0 (buffer.length - 1) buffer
          + b_expanded 65536 0 (buffer.length - 1) buffer * 65536] := by
  unfold weakChecksums
  rw [if_neg h0, if_pos hBN]
  simp only [Nat.cast_ofNat]
  rw [rollAux_eq buffer buffer.length 0 (buffer.length - 1) (by omega) (by omega)
    (by omega)]
  rw [show buffer.length - (buffer.length - 1) = 1 from by omega]
  simp only [List.range'_one, List.map_cons, List.map_nil, Nat.sub_zero,
    Nat.zero_add]

theorem stepByAux_getElem {α : Type} (n : Nat) (hn : 1 ≤ n) :
    ∀ (l : List α) (s i : Nat), (stepByAux n s l)[i]? = l[s + i * n]? := by
  intro l
  induction l with
  | nil =>
    intro s i
    simp [stepByAux]
  | cons x xs ih =>
    intro s i
    match s, i with
    | 0, 0 =>
      simp [stepByAux]
    | 0, i + 1 =>
      rw [show stepByAux n 0 (x :: xs) = x :: stepByAux n (n - 1) xs from rfl]
      rw [List.getElem?_cons_succ, ih (n - 1) i]
      have hmul : (i + 1) * n = i * n + n := by ring
      rw [show 0 + (i + 1) * n = (n - 1 + i * n) + 1 from by omega]
      rw [List.getElem?_cons_succ]
    | s + 1, i =>
      rw [show stepByAux n (s + 1) (x :: xs) = stepByAux n s xs from rfl]
      rw [ih s i]
      rw [show s + 1 + i * n = (s + i * n) + 1 from by omega]
      rw [List.getElem?_cons_succ]

theorem stepBy_getElem {α : Type} (n : Nat) (hn : 1 ≤ n) (l : List α) (i : Nat) :
    (stepBy n l)[i]? = l[i * n]? := by
  unfold stepBy
  rw [stepByAux_getElem n hn l 0 i, Nat.zero_add]

theorem stepByAux_length {α : Type} (n : Nat) (hn : 1 ≤ n) :
    ∀ (l : List α) (s : Nat), (stepByAux n s l).length = (l.length - s + n - 1) / n := by
  intro l
  induction l with
  | nil =>
    intro s
    simp only [stepByAux, List.length_nil]
    rw [Nat.div_eq_of_lt (by omega)]
  | cons x xs ih =>
    intro s
    match s with
    | 0 =>
      show (x :: stepByAux n (n - 1) xs).length = _
      rw [List.length_cons, ih (n - 1)]
      have h2 : (x :: xs).length - 0 + n - 1 = xs.length + n := by
        simp only [List.length_cons]
        omega
      rw [h2, Nat.add_div_right _ (by omega)]
      congr 1
      by_cases hc : n - 1 ≤ xs.length
      · rw [show xs.length - (n - 1) + n - 1 = xs.length from by omega]
      · rw [show xs.length - (n - 1) + n - 1 = n - 1 from by omega]
        rw [Nat.div_eq_of_lt (by omega), Nat.div_eq_of_lt (by omega)]
    | s + 1 =>
      show (stepByAux n s xs).length = _
      rw [ih s]
      congr 1
      have hlen : (x :: xs).length = xs.length + 1 := List.length_cons x xs
      omega

theorem stepBy_length {α : Type} (n : Nat) (hn : 1 ≤ n) (l : List α) :
    (stepBy n l).length = (l.length + n - 1) / n := by
  unfold stepBy
  rw [stepByAux_length n hn l 0]
  rw [show l.length - 0 + n - 1 = l.length + n - 1 from by omega]

theorem lor_compose (a b : Nat) (ha : a < 65536) :
    (b <<< 16) ||| a = a + b * 65536 := by
  have hpow : (2 : Nat) ^ 16 = 65536 := by norm_num
  have ha' : a < 2 ^ 16 := by omega
  have h := Nat.mul_add_lt_is_or ha' b
  rw [Nat.shiftLeft_eq, hpow, Nat.mul_comm b 65536]
  rw [hpow] at h
  omega

/-- **C1.** For every byte buffer and every valid window position `k` (window
`[k, k+B-1]` inside the buffer, `B = block_size`, modulus `2^16` as configured
by both binaries), the `k`-th value produced by the weak rolling checksum
iterator equals the closed-form expansion
`(b_expanded(k, k+B-1) <<< 16) ||| a_expanded(k, k+B-1)`. -/
theorem C1_weak_rolling_eq_expanded (block_size : Nat) (buffer : List Nat)
    (k : Nat) (hB : 1 ≤ block_size) (hk : k + block_size ≤ buffer.length) :
    (weakChecksums 65536 block_size buffer)[k]? =
      some ((b_expanded 65536 k (k + block_size - 1) buffer <<< 16) |||
        a_expanded 65536 k (k + block_size - 1) buffer) := by
  rw [weakChecksums_long block_size buffer hB (by omega)]
  rw [List.getElem?_map]
  rw [List.getElem?_range' 0 1
    (show k < buffer.length - block_size + 1 from by omega)]
  simp only [Option.map_some', Nat.one_mul, Nat.zero_add]
  rw [show k + (block_size - 1) = k + block_size - 1 from by omega]
  rw [lor_compose _ _ (a_expanded_lt _ _ _ _ (by norm_num))]

/-- Witness for C1: block size 2, buffer `[1, 2, 3]`, window position 1. -/
theorem C1_witness :
    (weakChecksums 65536 2 [1, 2, 3])[1]? =
      some ((b_expanded 65536 1 2 [1, 2, 3] <<< 16) |||
        a_expanded 65536 1 2 [1, 2, 3]) :=
  C1_weak_rolling_eq_expanded 2 [1, 2, 3] 1 (by decide) (by decide)

/-- **C8.** The weak rolling stream has exactly the specified cardinality:
no values when `N = 0`; exactly one value, covering `[0, N-1]`, when
`0 < N < B`; exactly `N - B + 1` values when `N ≥ B`. -/
theorem C8_weak_rolling_cardinality (block_size : Nat) (buffer : List Nat)
    (hB : 1 ≤ block_size) :
    (buffer.length = 0 → weakChecksums 65536 block_size buffer = [])
    ∧ (0 < buffer.length → buffer.length < block_size →
        weakChecksums 65536 block_size buffer
          = [a_expanded 65536 0 (buffer.length - 1) buffer
              + b_expanded 65536 0 (buffer.length - 1) buffer * 65536])
    ∧ (block_size ≤ buffer.length →
        (weakChecksums 65536 block_size buffer).length
          = buffer.length - block_size + 1) := by
  refine ⟨?_, ?_, ?_⟩
  · intro h
    unfold weakChecksums
    rw [if_pos h]
  · intro h1 h2
    exact weakChecksums_short block_size buffer (by omega) h2
  · intro h
    rw [weakChecksums_long block_size buffer hB h]
    simp only [List.length_map, List.length_range']

/-- Witness for C8: block size 2 over `[1, 2, 3]` gives `3 - 2 + 1 = 2`
rolling values. -/
theorem C8_witness : (weakChecksums 65536 2 [1, 2, 3]).length = 2 :=
  (C8_weak_rolling_cardinality 2 [1, 2, 3] (by decide)).2.2 (by decide)

/-- **C2, counterexample.** The claim says the non-overlapping stream always
yields `⌈N/B⌉` values.  At `N = 1` with the configured default
`B = 1000` the stream yields 2 values, not `⌈1/1000⌉ = 1`: the short buffer
is emitted once by the stepped rolling stream and once more as the partial
tail chunk. -/
theorem C2_counterexample :
    (weakNonOverlapping 65536 1000 [0]).length
      ≠ (([0] : List Nat).length + 1000 - 1) / 1000 := by
  decide

/-- **C2, amended.** For buffers with `N = 0` or `N ≥ B` the claim holds:
the non-overlapping stream has exactly `⌈N/B⌉` values; value `i < ⌊N/B⌋` is
the expanded checksum of the block `[i·B, i·B + B - 1]`, and when
`N mod B ≠ 0` the final value is the expanded checksum of the tail chunk
`[N - N mod B, N - 1]` (so the covered ranges tile the buffer exactly).
For `0 < N < B` the stream instead emits the whole-buffer value twice
(see the counterexample). -/
theorem C2_amended (block_size : Nat) (buffer : List Nat) (hB : 1 ≤ block_size)
    (hN : buffer.length = 0 ∨ block_size ≤ buffer.length) :
    (weakNonOverlapping 65536 block_size buffer).length
      = (buffer.length + block_size - 1) / block_size
    ∧ (∀ i, i < buffer.length / block_size →
        (weakNonOverlapping 65536 block_size buffer)[i]? =
          some (a_expanded 65536 (i * block_size)
              (i * block_size + block_size - 1) buffer
            + b_expanded 65536 (i * block_size)
              (i * block_size + block_size - 1) buffer * 65536))
    ∧ (buffer.length % block_size ≠ 0 →
        (weakNonOverlapping 65536 block_size buffer)[buffer.length / block_size]? =
          some (a_expanded 65536 0 (buffer.length % block_size - 1)
              (buffer.drop (buffer.length - buffer.length % block_size))
            + b_expanded 65536 0 (buffer.length % block_size - 1)
              (buffer.drop (buffer.length - buffer.length % block_size)) * 65536)) := by
  rcases hN with hN | hN
  · -- empty buffer
    have hmod : buffer.length % block_size = 0 := by
      rw [hN]
      exact Nat.zero_mod _
    have hnil : weakChecksums 65536 block_size buffer = [] := by
      unfold weakChecksums
      rw [if_pos hN]
    unfold weakNonOverlapping
    rw [if_neg (by omega)]
    refine ⟨?_, ?_, ?_⟩
    · rw [hnil]
      show (stepBy block_size ([] : List Nat)).length = _
      rw [stepBy_length block_size hB, hN]
      simp only [List.length_nil]
    · intro i hi
      rw [hN, Nat.zero_div] at hi
      omega
    · intro h
      exact absurd hmod h
  · -- N ≥ B
    have hq : buffer.length / block_size * block_size ≤ buffer.length :=
      Nat.div_mul_le_self _ _
    have hrolling := weakChecksums_long block_size buffer hB hN
    have hsteplen : (stepBy block_size (weakChecksums 65536 block_size buffer)).length
        = buffer.length / block_size := by
      rw [stepBy_length block_size hB, hrolling]
      simp only [List.length_map, List.length_range']
      rw [show buffer.length - block_size + 1 + block_size - 1 = buffer.length
        from by omega]
    have hstepget : ∀ i, i < buffer.length / block_size →
        (stepBy block_size (weakChecksums 65536 block_size buffer))[i]? =
          some (a_expanded 65536 (i * block_size)
              (i * block_size + block_size - 1) buffer
            + b_expanded 65536 (i * block_size)
              (i * block_size + block_size - 1) buffer * 65536) := by
      intro i hi
      have hiB : i * block_size + block_size ≤ buffer.length := by
        have h1 : i + 1 ≤ buffer.length / block_size := hi
        have h2 : (i + 1) * block_size ≤ buffer.length / block_size * block_size :=
          Nat.mul_le_mul_right block_size h1
        have h3 : (i + 1) * block_size = i * block_size + block_size := by ring
        omega
      rw [stepBy_getElem block_size hB, hrolling, List.getElem?_map]
      rw [List.getElem?_range' 0 1
        (show i * block_size < buffer.length - block_size + 1 from by omega)]
      simp only [Option.map_some', Nat.one_mul, Nat.zero_add]
      rw [show i * block_size + (block_size - 1)
        = i * block_size + block_size - 1 from by omega]
    by_cases hmod : buffer.length % block_size = 0
    · unfold weakNonOverlapping
      rw [if_neg (by omega)]
      refine ⟨?_, hstepget, ?_⟩
      · rw [hsteplen]
        have hdecomp := Nat.div_add_mod buffer.length block_size
        have hdiv : (buffer.length + block_size - 1) / block_size
            = buffer.length / block_size := by
          rw [show buffer.length + block_size - 1
            = block_size * (buffer.length / block_size) + (block_size - 1)
            from by omega]
          rw [Nat.mul_add_div (by omega)]
          rw [show (block_size - 1) / block_size = 0 from Nat.div_eq_of_lt (by omega)]
          omega
        omega
      · intro h
        exact absurd hmod h
    · unfold weakNonOverlapping
      rw [if_pos (by omega)]
      have hr1 : 1 ≤ buffer.length % block_size := by omega
      have hr2 : buffer.length % block_size < block_size :=
        Nat.mod_lt _ (by omega)
      have hdroplen : (buffer.drop (buffer.length - buffer.length % block_size)).length
          = buffer.length % block_size := by
        rw [List.length_drop]
        omega
      have htail : weakChecksums 65536 block_size
            (buffer.drop (buffer.length - buffer.length % block_size))
          = [a_expanded 65536 0 (buffer.length % block_size - 1)
              (buffer.drop (buffer.length - buffer.length % block_size))
            + b_expanded 65536 0 (buffer.length % block_size - 1)
              (buffer.drop (buffer.length - buffer.length % block_size)) * 65536] := by
        rw [weakChecksums_short block_size _ (by omega) (by omega), hdroplen]
      rw [htail]
      have hdecomp := Nat.div_add_mod buffer.length block_size
      refine ⟨?_, ?_, ?_⟩
      · rw [List.length_append, hsteplen]
        simp only [List.length_cons, List.length_nil]
        have hdiv : (buffer.length + block_size - 1) / block_size
            = buffer.length / block_size + 1 := by
          rw [show buffer.length + block_size - 1
            = block_size * (buffer.length / block_size)
              + (buffer.length % block_size + block_size - 1) from by omega]
          rw [Nat.mul_add_div (by omega)]
          have h1 : (buffer.length % block_size + block_size - 1) / block_size = 1 :=
            Nat.div_eq_of_lt_le (by omega) (by omega)
          omega
        omega
      · intro i hi
        rw [List.getElem?_append_left (by omega : i < _)]
        · exact hstepget i hi
      · intro _
        rw [List.getElem?_append_right (by omega : _ ≤ buffer.length / block_size)]
        rw [hsteplen]
        simp only [Nat.sub_self, List.getElem?_cons_zero]

/-- Witness for C2: block size 2 over `[1, 2, 3]` gives `⌈3/2⌉ = 2`
non-overlapping values. -/
theorem C2_witness : (weakNonOverlapping 65536 2 [1, 2, 3]).length = 2 :=
  (C2_amended 2 [1, 2, 3] (by decide) (Or.inr (by decide))).1

theorem strongIter_length (hash : List Nat → Nat) (data : List Nat)
    (shift : Nat) (hs : 0 < shift) :
    ∀ (fuel left_index right_index : Nat),
      data.length ≤ fuel + right_index →
      (strongIter hash data shift fuel left_index right_index).length
        = (data.length - right_index + shift - 1) / shift := by
  intro fuel
  induction fuel with
  | zero =>
    intro l r h
    show (List.length ([] : List Nat)) = _
    rw [List.length_nil, Nat.div_eq_of_lt (by omega)]
  | succ fuel ih =>
    intro l r h
    rw [strongIter]
    by_cases hr : data.length ≤ r
    · rw [if_pos hr]
      rw [List.length_nil, Nat.div_eq_of_lt (by omega)]
    · rw [if_neg hr]
      rw [List.length_cons, ih (l + shift) (r + shift) (by omega)]
      by_cases hc : r + shift ≤ data.length
      · rw [show data.length - r + shift - 1
          = (data.length - (r + shift) + shift - 1) + shift from by omega]
        rw [Nat.add_div_right _ hs]
      · rw [show data.length - (r + shift) + shift - 1 = shift - 1 from by omega]
        rw [Nat.div_eq_of_lt (by omega)]
        rw [show (data.length - r + shift - 1) / shift = 1
          from Nat.div_eq_of_lt_le (by omega) (by omega)]

/-- **C5, counterexample.**  The claim says that for `N mod B ≠ 0` the strong
non-overlapping stream emits one value per full block plus one for the
partial tail (`⌊N/B⌋ + 1` values).  With `B = 2` over a 3-byte buffer the
iterator emits a value only while `right_index < data.len()`, so it yields a
single value — the tail `[2, 2]` (and any block ending exactly at `N`) is
never emitted. -/
theorem C5_counterexample :
    (strongChecksumsNonOverlapping (fun _ => 0) 2 [0, 0, 0]).length
      ≠ ([0, 0, 0] : List Nat).length / 2 + 1 := by
  decide

/-- **C5, amended.**  The strong rolling iterator indeed never emits a value
once `right_index ≥ data.len()`; consequently the non-overlapping stream
emits only the blocks whose right end lies strictly inside the buffer:
`⌊(N-1)/min(N,B)⌋` values for `N > 0` (no partial tail, and the final full
block ending exactly at `N` is omitted as well), and nothing for `N = 0`. -/
theorem C5_amended (hash : List Nat → Nat) (block_size : Nat)
    (data : List Nat) (hB : 1 ≤ block_size) :
    (data.length = 0 → strongChecksumsNonOverlapping hash block_size data = [])
    ∧ (data.length ≠ 0 →
        (strongChecksumsNonOverlapping hash block_size data).length
          = (data.length - 1) / min data.length block_size)
    ∧ (∀ shift fuel left_index right_index, data.length ≤ right_index →
        strongIter hash data shift fuel left_index right_index = []) := by
  refine ⟨?_, ?_, ?_⟩
  · intro h
    unfold strongChecksumsNonOverlapping
    rw [h]
    rfl
  · intro h
    have hmin : 0 < min data.length block_size := by omega
    unfold strongChecksumsNonOverlapping
    rw [strongIter_length hash data _ hmin data.length 0 _ (by omega)]
    rw [show data.length - min data.length block_size
        + min data.length block_size - 1 = data.length - 1 from by omega]
  · intro shift fuel l r hr
    match fuel with
    | 0 => rfl
    | fuel + 1 =>
      rw [strongIter, if_pos hr]

/-- Witness for C5: hash `fun _ => 0`, block size 2, buffer `[0,0,0]`:
exactly `⌊(3-1)/2⌋ = 1` value. -/
theorem C5_witness :
    (strongChecksumsNonOverlapping (fun _ => 0) 2 [0, 0, 0]).length = 1 :=
  (C5_amended (fun _ => 0) 2 [0, 0, 0] (by decide)).2.1 (by decide)

/-- **C3, counterexample.**  The claim says the updater sends its
non-overlapping weak checksums.  It sends the rolling stream: on a
1002-byte file with the default block size 1000 it sends 3 checksums where
the non-overlapping stream has 2, so the sent sequence is not the
non-overlapping one. -/
theorem C3_counterexample :
    updaterOpeningMessages c3UpdaterState c3Buffer
      = [MessageM.fileName "test-remote.txt",
         MessageM.weakChecksums (weakChecksums 65536 1000 c3Buffer)]
    ∧ (weakChecksums 65536 1000 c3Buffer).length = 3
    ∧ (weakNonOverlapping 65536 1000 c3Buffer).length = 2
    ∧ weakChecksums 65536 1000 c3Buffer ≠ weakNonOverlapping 65536 1000 c3Buffer := by
  have hlen : c3Buffer.length = 1002 := by
    rw [show c3Buffer = List.replicate 1000 0 ++ [1, 2] from rfl,
      List.length_append, List.length_replicate]
    norm_num
  have hroll : (weakChecksums 65536 1000 c3Buffer).length = 3 := by
    rw [weakChecksums_long 1000 c3Buffer (by norm_num) (by omega)]
    simp only [List.length_map, List.length_range']
    omega
  have hnon : (weakNonOverlapping 65536 1000 c3Buffer).length = 2 := by
    unfold weakNonOverlapping
    rw [if_pos (show c3Buffer.length % 1000 ≠ 0 from by rw [hlen]; decide)]
    rw [List.length_append, stepBy_length 1000 (by norm_num), hroll]
    rw [weakChecksums_short 1000
      (c3Buffer.drop (c3Buffer.length - c3Buffer.length % 1000))
      (by rw [List.length_drop, hlen]; decide)
      (by rw [List.length_drop, hlen]; decide)]
    simp only [List.length_cons, List.length_nil]
  refine ⟨?_, hroll, hnon, ?_⟩
  · simp only [updaterOpeningMessages, UpdaterState.build_filename_msg,
      UpdaterState.compute_our_checksums, c3UpdaterState, CheckSumS.defaultConfig]
  · intro h
    rw [h] at hroll
    omega

/-- **C3, amended.**  When the updater session opens a connection it sends
`FileName(remote_path)` and then `WeakChecksums` carrying exactly the
**rolling** weak checksum stream of its own file (the non-overlapping
stream of the original claim is not what is sent). -/
theorem C3_amended (σ : UpdaterState) (file_contents : List Nat) :
    updaterOpeningMessages σ file_contents
      = [MessageM.fileName σ.remote_file_path,
         MessageM.weakChecksums (weakChecksums σ.checksum.weak.modulus
           σ.checksum.weak.block_size file_contents)] := rfl

/-- **C6** (claim: instructions tile `[0, source_file_length)` and rebuild
the source file).  The synthesis function is stubbed: it returns `[]` for
every input, and the empty list does not tile a nonzero interval such as
`[0, 1000)` — with no instructions, no byte of the source file is
reproduced.  The spec (§4.5, §9) records the intended behaviour, so this is
a bug of the code, not of the claim. -/
theorem C6_instruction_stub (σ : UpdaterState) (indices : List (Nat × Nat)) :
    given_indices_issue_list_of_instructions σ indices = []
    ∧ ¬ tilesExactly (given_indices_issue_list_of_instructions σ indices) 1000 := by
  constructor
  · rfl
  · intro h
    have h0 : (0 : Nat) = 1000 := h
    omega

theorem lookupList_cons {α : Type} (k : Nat) (a : α) (rest : List (Nat × α))
    (key : Nat) :
    lookupList ((k, a) :: rest) key
      = if k = key then some a else lookupList rest key := by
  unfold lookupList
  by_cases hk : k = key
  · rw [if_pos hk, List.find?_cons_of_pos _ (by simpa using hk)]
    rfl
  · rw [if_neg hk, List.find?_cons_of_neg _ (by simpa using hk)]

theorem lookupList_upsert_self_none {α : Type} (upd : α → α) (dflt : α)
    (key : Nat) :
    ∀ t : List (Nat × α), lookupList t key = none →
      lookupList (listUpsert upd dflt key t) key = some dflt := by
  intro t
  induction t with
  | nil =>
    intro _
    rw [listUpsert, lookupList_cons, if_pos rfl]
  | cons p rest ih =>
    obtain ⟨k, a⟩ := p
    intro hnone
    rw [lookupList_cons] at hnone
    by_cases hk : k = key
    · rw [if_pos hk] at hnone
      exact absurd hnone (by simp)
    · rw [if_neg hk] at hnone
      rw [listUpsert, if_neg hk, lookupList_cons, if_neg hk, ih hnone]

theorem lookupList_upsert_self_some {α : Type} (upd : α → α) (dflt : α)
    (key : Nat) :
    ∀ (t : List (Nat × α)) (a : α), lookupList t key = some a →
      lookupList (listUpsert upd dflt key t) key = some (upd a) := by
  intro t
  induction t with
  | nil =>
    intro a hsome
    exact absurd hsome (by simp [lookupList])
  | cons p rest ih =>
    obtain ⟨k, b⟩ := p
    intro a hsome
    rw [lookupList_cons] at hsome
    by_cases hk : k = key
    · rw [if_pos hk] at hsome
      injection hsome with hba
      subst hba
      subst hk
      rw [listUpsert, if_pos rfl, lookupList_cons, if_pos rfl]
    · rw [if_neg hk] at hsome
      rw [listUpsert, if_neg hk, lookupList_cons, if_neg hk, ih a hsome]

theorem lookupList_upsert_other {α : Type} (upd : α → α) (dflt : α)
    (key key' : Nat) (hne : key' ≠ key) :
    ∀ t : List (Nat × α),
      lookupList (listUpsert upd dflt key t) key' = lookupList t key' := by
  intro t
  induction t with
  | nil =>
    rw [listUpsert, lookupList_cons, if_neg (fun h => hne h.symm)]
  | cons p rest ih =>
    obtain ⟨k, a⟩ := p
    by_cases hk : k = key
    · subst hk
      rw [listUpsert, if_pos rfl, lookupList_cons, lookupList_cons,
        if_neg (fun h => hne h.symm), if_neg (fun h => hne h.symm)]
    · rw [listUpsert, if_neg hk, lookupList_cons, lookupList_cons, ih]

theorem tableHas_append_self (t : HashTable) (h w v : Nat) :
    tableHas (tableAppend t h w v) h w v := by
  unfold tableHas tableAppend
  cases hm : lookupList t h with
  | none =>
    refine ⟨[(w, [v])], [v], ?_, ?_, List.mem_singleton.mpr rfl⟩
    · exact lookupList_upsert_self_none _ _ _ _ hm
    · rw [lookupList_cons, if_pos rfl]
  | some m =>
    cases ho : lookupList m w with
    | none =>
      refine ⟨_, [v], lookupList_upsert_self_some _ _ _ _ _ hm, ?_,
        List.mem_singleton.mpr rfl⟩
      exact lookupList_upsert_self_none _ _ _ _ ho
    | some offsets =>
      refine ⟨_, offsets ++ [v], lookupList_upsert_self_some _ _ _ _ _ hm, ?_,
        List.mem_append_right _ (List.mem_singleton.mpr rfl)⟩
      exact lookupList_upsert_self_some _ _ _ _ _ ho

theorem tableHas_append_mono (t : HashTable) (h w v h' w' v' : Nat)
    (hhas : tableHas t h w v) : tableHas (tableAppend t h' w' v') h w v := by
  obtain ⟨m, offsets, hm, ho, hv⟩ := hhas
  unfold tableAppend
  by_cases hh : h = h'
  · subst hh
    by_cases hw : w = w'
    · subst hw
      exact ⟨_, offsets ++ [v'], lookupList_upsert_self_some _ _ _ _ _ hm,
        lookupList_upsert_self_some _ _ _ _ _ ho, List.mem_append_left _ hv⟩
    · refine ⟨_, offsets, lookupList_upsert_self_some _ _ _ _ _ hm, ?_, hv⟩
      rw [lookupList_upsert_other _ _ _ _ hw]
      exact ho
  · refine ⟨m, offsets, ?_, ho, hv⟩
    rw [lookupList_upsert_other _ _ _ _ hh]
    exact hm

theorem compileAux_has (block_size : Nat) :
    ∀ (ws : List Nat) (start : Nat) (t : HashTable),
      (∀ h w v, tableHas t h w v
        → tableHas (compileAux block_size start ws t) h w v)
      ∧ (∀ i, i < ws.length →
          tableHas (compileAux block_size start ws t)
            (weak_hash (ws.getD i 0)) (ws.getD i 0) ((start + i) * block_size)) := by
  intro ws
  induction ws with
  | nil =>
    intro start t
    refine ⟨fun h w v hv => hv, fun i hi => ?_⟩
    rw [List.length_nil] at hi
    omega
  | cons c rest ih =>
    intro start t
    constructor
    · intro h w v hv
      exact (ih (start + 1)
        (tableAppend t (weak_hash c) c (start * block_size))).1 h w v
        (tableHas_append_mono _ _ _ _ _ _ _ hv)
    · intro i hi
      match i with
      | 0 =>
        have base := tableHas_append_self t (weak_hash c) c (start * block_size)
        exact (ih (start + 1)
          (tableAppend t (weak_hash c) c (start * block_size))).1 _ _ _ base
      | i + 1 =>
        have hres := (ih (start + 1)
          (tableAppend t (weak_hash c) c (start * block_size))).2 i
          (by rw [List.length_cons] at hi; omega)
        rw [show start + (i + 1) = start + 1 + i from by omega]
        exact hres

/-- **C7.**  Round-trip of the match index: for every checksum sequence `W`
compiled into the index (appending `i * block_size` under bucket
`weak_hash W[i]` and key `W[i]`), probing with `W[i]` succeeds at the
16-bit bucket level and at the 32-bit weak level, and the candidate list
contains the byte offset `i * block_size`. -/
theorem C7_match_index_roundtrip (block_size : Nat) (ws : List Nat) (i : Nat)
    (hi : i < ws.length) :
    ∃ m offsets,
      lookupList (compileHashTable block_size ws) (weak_hash (ws.getD i 0))
          = some m
      ∧ lookupList m (ws.getD i 0) = some offsets
      ∧ i * block_size ∈ offsets := by
  have h := (compileAux_has block_size ws 0 []).2 i hi
  rw [Nat.zero_add] at h
  exact h

/-- Witness for C7: checksums `[9, 9, 7]`, block size 3, index 2. -/
theorem C7_witness :
    ∃ m offsets,
      lookupList (compileHashTable 3 [9, 9, 7]) (weak_hash (([9, 9, 7] : List Nat).getD 2 0))
          = some m
      ∧ lookupList m (([9, 9, 7] : List Nat).getD 2 0) = some offsets
      ∧ 2 * 3 ∈ offsets :=
  C7_match_index_roundtrip 3 [9, 9, 7] 2 (by decide)

theorem requestAux_mem (t : HashTable) :
    ∀ (ws : List Nat) (start j : Nat),
      j ∈ requestAux t start ws
        ↔ start ≤ j ∧ j - start < ws.length
            ∧ probeOk t (ws.getD (j - start) 0) = true := by
  intro ws
  induction ws with
  | nil =>
    intro start j
    constructor
    · intro h
      exact absurd h (List.not_mem_nil j)
    · rintro ⟨_, h2, _⟩
      rw [List.length_nil] at h2
      omega
  | cons w rest ih =>
    intro start j
    rw [requestAux]
    by_cases hp : probeOk t w = true
    · rw [if_pos hp, List.mem_cons, ih (start + 1) j]
      constructor
      · rintro (rfl | ⟨h1, h2, h3⟩)
        · refine ⟨Nat.le_refl j, ?_, ?_⟩
          · rw [Nat.sub_self, List.length_cons]
            omega
          · rw [Nat.sub_self]
            exact hp
        · refine ⟨by omega, ?_, ?_⟩
          · rw [List.length_cons]
            omega
          · rw [show j - start = (j - (start + 1)) + 1 from by omega]
            exact h3
      · rintro ⟨h1, h2, h3⟩
        by_cases hj : j = start
        · exact Or.inl hj
        · refine Or.inr ⟨by omega, ?_, ?_⟩
          · rw [List.length_cons] at h2
            omega
          · rw [show j - start = (j - (start + 1)) + 1 from by omega] at h3
            exact h3
    · rw [if_neg hp, ih (start + 1) j]
      constructor
      · rintro ⟨h1, h2, h3⟩
        refine ⟨by omega, ?_, ?_⟩
        · rw [List.length_cons]
          omega
        · rw [show j - start = (j - (start + 1)) + 1 from by omega]
          exact h3
      · rintro ⟨h1, h2, h3⟩
        by_cases hj : j = start
        · subst hj
          rw [Nat.sub_self] at h3
          exact absurd h3 hp
        · refine ⟨by omega, ?_, ?_⟩
          · rw [List.length_cons] at h2
            omega
          · rw [show j - start = (j - (start + 1)) + 1 from by omega] at h3
            exact h3

/-- **C4, counterexample.**  The claim says the source compiles the
MatchIndex from the received sequence `W`.  On an empty local file and
`W = [1]` the handler produces an empty table, while compiling `W` itself
would produce a nonempty one: the table is compiled from the source's own
checksums, not from `W`. -/
theorem C4_counterexample :
    (handleWeakChecksums initialSourceState [] [1]).1.hash_table = []
    ∧ compileHashTable 1000 [1] ≠ ([] : HashTable) := by
  constructor
  · rfl
  · decide

/-- **C4, amended.**  On `WeakChecksums(W)` the source stores `W` as
`remote_weak_checksums`, loads its local file, computes its **own**
non-overlapping weak checksums, compiles the MatchIndex from those own
checksums (offsets scaled by the strong block size), and sends a
`StrongChecksumRequest` obtained by probing each element of the
**received** `W` (by its index) against that index — it does not roll over
its own file at this stage. -/
theorem C4_amended (σ : SourceState) (file_contents received : List Nat) :
    (handleWeakChecksums σ file_contents received).1.remote_weak_checksums
        = received
    ∧ (handleWeakChecksums σ file_contents received).1.own_data = file_contents
    ∧ (handleWeakChecksums σ file_contents received).1.weak_checksums
        = weakNonOverlapping σ.checksum.weak.modulus σ.checksum.weak.block_size
            file_contents
    ∧ (handleWeakChecksums σ file_contents received).1.hash_table
        = compileHashTable σ.checksum.strong.block_size
            (weakNonOverlapping σ.checksum.weak.modulus σ.checksum.weak.block_size
              file_contents)
    ∧ (handleWeakChecksums σ file_contents received).2
        = MessageM.strongChecksumRequest
            (requestAux (handleWeakChecksums σ file_contents received).1.hash_table
              0 received)
    ∧ ∀ j, j ∈ requestAux
          (handleWeakChecksums σ file_contents received).1.hash_table 0 received
        ↔ j < received.length
          ∧ probeOk (handleWeakChecksums σ file_contents received).1.hash_table
              (received.getD j 0) = true := by
  refine ⟨rfl, rfl, rfl, rfl, rfl, ?_⟩
  intro j
  rw [requestAux_mem _ received 0 j]
  simp only [Nat.sub_zero]
  constructor
  · rintro ⟨_, h2, h3⟩
    exact ⟨h2, h3⟩
  · rintro ⟨h2, h3⟩
    exact ⟨Nat.zero_le j, h2, h3⟩

theorem strongMatchLoop_safe (hash : List Nat → Nat) (block_size : Nat)
    (own_data : List Nat) (strong remote_offset : Nat) :
    ∀ offsets : List Nat, (∀ o ∈ offsets, o + block_size ≤ own_data.length) →
      ∃ r, strongMatchLoop hash block_size own_data strong remote_offset offsets
        = some r := by
  intro offsets
  induction offsets with
  | nil =>
    intro _
    exact ⟨[], rfl⟩
  | cons o os ih =>
    intro hb
    obtain ⟨r, hr⟩ := ih (fun o' ho' => hb o' (List.mem_cons_of_mem _ ho'))
    rw [strongMatchLoop, if_pos (hb o (List.mem_cons_self _ _)), hr]
    by_cases hh : hash ((own_data.drop o).take block_size) = strong
    · rw [Option.map_some', if_pos hh]
      exact ⟨_, rfl⟩
    · rw [Option.map_some', if_neg hh]
      exact ⟨_, rfl⟩

/-- **C10, counterexample.**  The claim says the handler performs only
in-bounds accesses for *any* peer-supplied list in any reachable state.  In
the state reached after `WeakChecksums([])` on an empty local file, a
`StrongChecksums` message carrying offset 0 makes the handler index
`remote_weak_checksums[0]` out of bounds — a panic, modelled by `none`. -/
theorem C10_counterexample :
    process_strong_hash_response (fun _ => 0)
      (handleWeakChecksums initialSourceState [] []).1 [(0, 0)] = none := rfl

/-- **C10, amended.**  The handler stays in bounds only under explicit side
conditions: every peer-supplied `remote_offset` is an index into the stored
`remote_weak_checksums`, the weak checksum found there is present at both
levels of the hash table, and every candidate offset `o` in its list
satisfies `o + block_size ≤ |own_data|`.  Under those conditions the
handler completes without panicking. -/
theorem C10_amended (hash : List Nat → Nat) (σ : SourceState)
    (resp : List (Nat × Nat))
    (hsafe : ∀ p ∈ resp, ∃ w m offsets,
      σ.remote_weak_checksums[p.1]? = some w
      ∧ lookupList σ.hash_table (weak_hash w) = some m
      ∧ lookupList m w = some offsets
      ∧ ∀ o ∈ offsets, o + σ.checksum.strong.block_size ≤ σ.own_data.length) :
    ∃ ms, process_strong_hash_response hash σ resp = some ms := by
  induction resp with
  | nil => exact ⟨[], rfl⟩
  | cons p rest ih =>
    obtain ⟨w, m, offsets, hw, hm, ho, hb⟩ := hsafe p (List.mem_cons_self _ _)
    obtain ⟨ms, hms⟩ := ih (fun q hq => hsafe q (List.mem_cons_of_mem _ hq))
    obtain ⟨inner, hinner⟩ := strongMatchLoop_safe hash
      σ.checksum.strong.block_size σ.own_data p.2 p.1 offsets hb
    refine ⟨inner ++ ms, ?_⟩
    obtain ⟨ro, s⟩ := p
    rw [process_strong_hash_response, hw, Option.some_bind, hm, Option.some_bind,
      ho, Option.some_bind, hinner, Option.some_bind, hms, Option.map_some']

/-- Witness for C10: under the amended side conditions the handler returns a
result. -/
theorem C10_witness :
    ∃ ms, process_strong_hash_response (fun _ => 0) c10WitnessState [(0, 0)]
      = some ms :=
  C10_amended (fun _ => 0) c10WitnessState [(0, 0)] (by
    intro p hp
    have hp' : p = (0, 0) := by simpa using hp
    subst hp'
    exact ⟨327685, [(327685, [0])], [0], by decide, by decide, by decide,
      by decide⟩)

/-- **C9.**  Reading the next message yields a clean end-of-stream
(`Ok(None)`) exactly when EOF is reached with an empty read buffer — with
nonempty read chunks that means: nothing buffered, nothing on the wire, and
the decoder rejecting the empty buffer.  And whenever every decode attempt
along the run fails and the bytes accumulated at EOF are nonempty, the
result is the `ConnectionResetByPeer` error. -/
theorem C9_read_message_eof (decode : List Nat → Option MessageM)
    (buffer : List Nat) (reads : List (List Nat))
    (hreads : ∀ chunk ∈ reads, chunk ≠ []) :
    (read_message decode buffer reads = Except.ok none
      ↔ buffer = [] ∧ reads = [] ∧ decode [] = none)
    ∧ ((∀ i, i ≤ reads.length →
          decode (buffer ++ (reads.take i).flatten) = none) →
        buffer ++ reads.flatten ≠ [] →
        read_message decode buffer reads
          = Except.error SyncrErrorM.connectionResetByPeer) := by
  induction reads generalizing buffer with
  | nil =>
    constructor
    · rw [read_message]
      cases hd : decode buffer with
      | some m =>
        simp only [hd]
        constructor
        · intro h
          exact absurd h (by simp)
        · rintro ⟨rfl, -, hnone⟩
          rw [hd] at hnone
          exact absurd hnone (by simp)
      | none =>
        simp only [hd]
        by_cases hb : buffer = []
        · subst hb
          simp [hd]
        · rw [if_neg (by simpa [List.isEmpty_iff] using hb)]
          constructor
          · intro h
            exact absurd h (by simp)
          · rintro ⟨rfl, -, -⟩
            exact absurd rfl hb
    · intro hdec hne
      have h0 := hdec 0 (by omega)
      simp only [List.take_zero, List.flatten_nil, List.append_nil] at h0 hne
      rw [read_message]
      simp only [h0]
      rw [if_neg (by simpa [List.isEmpty_iff] using hne)]
  | cons chunk rest ih =>
    have hchunk : chunk ≠ [] := hreads chunk (List.mem_cons_self _ _)
    have ihr := ih (buffer ++ chunk)
      (fun c hc => hreads c (List.mem_cons_of_mem _ hc))
    constructor
    · rw [read_message]
      cases hd : decode buffer with
      | some m =>
        simp only [hd]
        constructor
        · intro h
          exact absurd h (by simp)
        · rintro ⟨-, hcons, -⟩
          exact absurd hcons (by simp)
      | none =>
        simp only [hd]
        rw [ihr.1]
        constructor
        · rintro ⟨hb, -, -⟩
          exact absurd hb (by simp [hchunk])
        · rintro ⟨-, hcons, -⟩
          exact absurd hcons (by simp)
    · intro hdec hne
      have h0 := hdec 0 (by omega)
      simp only [List.take_zero, List.flatten_nil, List.append_nil] at h0
      rw [read_message]
      simp only [h0]
      apply ihr.2
      · intro i hi
        have h1 := hdec (i + 1) (by simp only [List.length_cons]; omega)
        simp only [List.take_succ_cons, List.flatten_cons,
          ← List.append_assoc] at h1
        exact h1
      · intro hcontra
        simp only [List.append_assoc, List.flatten_cons] at hne hcontra
        exact hne hcontra

/-- Witness for C9: decoder that always fails, one leftover byte, immediate
EOF — the reader reports `ConnectionResetByPeer`. -/
theorem C9_witness :
    read_message (fun _ => none) [1] []
      = Except.error SyncrErrorM.connectionResetByPeer :=
  (C9_read_message_eof (fun _ => none) [1] [] (by simp)).2
    (fun _ _ => rfl) (by simp)
